import Mathlib

/-!
# Verification of the beanstalkd job-lifecycle core

A shallow embedding of the beanstalkd work-queue server (job.c, prot.c,
conn.c and friends) together with proofs about the embedded operations.

Machine integers are modelled as `Nat` with explicit reductions modulo
`2^32` / `2^64` exactly where the C code can overflow or convert.
-/

/-- Job states, from job.h (`JOB_STATE_*`). -/
inductive JState where
  | invalid
  | ready
  | reserved
  | buried
  | delayed
  deriving Repr, DecidableEq

/-- A job record, from `struct job` in job.h: 64-bit unsigned `id`,
32-bit unsigned `pri`, `delay`, `ttr`, the wall-clock `deadline`
(time_t), the state tag, the four per-job counters and `body_size`.
The body bytes and the intrusive `prev`/`next` pointers are not part of
this value model (the linked-list structure is modelled separately). -/
structure Job where
  id : Nat
  pri : Nat
  delay : Nat
  ttr : Nat
  deadline : Nat
  state : JState
  timeout_ct : Nat
  release_ct : Nat
  bury_ct : Nat
  kick_ct : Nat
  body_size : Nat
  deriving Repr, DecidableEq

/-- Conversion of an unsigned value to a 32-bit signed int, as gcc
performs it for the implicit conversion in `return a->pri - b->pri;`. -/
def toInt32 (n : Nat) : Int :=
  if n % 2 ^ 32 < 2 ^ 31 then ((n % 2 ^ 32 : Nat) : Int)
  else ((n % 2 ^ 32 : Nat) : Int) - 2 ^ 32

/-- Conversion of a (possibly negative) 64-bit signed value to a 32-bit
signed int, as in the `return a->deadline - b->deadline;` of
`job_delay_cmp` (time_t minus time_t, truncated to int). -/
def intToInt32 (i : Int) : Int :=
  toInt32 (i % 2 ^ 32).toNat

/-- `job_pri_cmp` from job.c: branch on equal `pri`, compare the 64-bit
ids by ordered compare, otherwise return the wrapped 32-bit difference
`a->pri - b->pri` (unsigned subtraction converted to int). -/
def job_pri_cmp (a b : Job) : Int :=
  if a.pri = b.pri then
    if a.id > b.id then 1
    else if a.id < b.id then -1
    else 0
  else toInt32 ((a.pri % 2 ^ 32 + 2 ^ 32 - b.pri % 2 ^ 32) % 2 ^ 32)

/-- `job_delay_cmp` from job.c: branch on equal `deadline`, compare the
64-bit ids by ordered compare, otherwise return the difference
`a->deadline - b->deadline` truncated to int. -/
def job_delay_cmp (a b : Job) : Int :=
  if a.deadline = b.deadline then
    if a.id > b.id then 1
    else if a.id < b.id then -1
    else 0
  else intToInt32 ((a.deadline : Int) - (b.deadline : Int))

/-!
## The intrusive doubly-linked job list (job.c)

`job_insert`, `job_remove` and `job_list_any_p` manipulate the
`prev`/`next` pointers embedded in each job.  We model the pointer
graph as a heap: a function from node addresses (`Nat`) to a pair of
pointers.  `allocate_job` initialises `j->next = j->prev = j`
("not in a linked list").
-/

/-- The `prev`/`next` fields of one node. -/
structure Links where
  prev : Nat
  next : Nat
  deriving Repr, DecidableEq

/-- The pointer heap: node address to its link fields. -/
def LHeap : Type := Nat → Links

/-- Write the `prev` field of node `x` (C: `x->prev = v`). -/
def setPrev (h : LHeap) (x v : Nat) : LHeap :=
  fun y => if y = x then { prev := v, next := (h x).next } else h y

/-- Write the `next` field of node `x` (C: `x->next = v`). -/
def setNext (h : LHeap) (x v : Nat) : LHeap :=
  fun y => if y = x then { prev := (h x).prev, next := v } else h y

/-- `job_list_any_p` from job.c: `head->next != head || head->prev != head`. -/
def job_list_any_p (h : LHeap) (j : Nat) : Bool :=
  decide ((h j).next ≠ j) || decide ((h j).prev ≠ j)

/-- `job_remove` from job.c, on the pointer heap.  Returns the removed
node (or `none`) and the updated heap, performing the three pointer
writes in source order. -/
def job_remove (h : LHeap) (j : Nat) : Option Nat × LHeap :=
  if ¬ job_list_any_p h j then (none, h)
  else
    let h1 := setPrev h (h j).next (h j).prev
    let h2 := setNext h1 (h1 j).prev (h1 j).next
    let h3 := setNext (setPrev h2 j j) j j
    (some j, h3)

/-- `job_insert` from job.c, on the pointer heap: a no-op when `j` is
already in a list, otherwise splice `j` in right before `head`
(i.e. at the tail of the list whose sentinel is `head`). -/
def job_insert (h : LHeap) (head j : Nat) : LHeap :=
  if job_list_any_p h j then h
  else
    let h1 := setPrev h j (h head).prev
    let h2 := setNext h1 j head
    let h3 := setNext h2 (h2 head).prev j
    setPrev h3 head j

/-- The initial link state set by `allocate_job`: `j->next = j->prev = j`. -/
def allocate_job_links (h : LHeap) (j : Nat) : LHeap :=
  setPrev (setNext h j j) j j

/-!
## The bounded priority queue (interface of pq.c)

Modelled from the spec: pq.c itself is not among the provided sources
(only its test file and its callers are).  Per §4.1 the queue is a
bounded container parameterized by a comparator, with `give` failing at
capacity, `take`/`peek` returning the comparator-minimum, `find` a
linear scan by id and `used` the current count.  We represent the
contents as a list kept sorted ascending by the comparator, so that
`take` pops the minimum; the binary-heap layout is an implementation
detail not exposed by the interface.
-/

/-- Modelled from the spec: the priority queue of pq.c, §4.1.
`cap` is the bound given to `make_pq`; `items` the contents in
comparator order (minimum first). -/
structure PQ where
  cap : Nat
  items : List Job
  deriving Repr, DecidableEq

/-- Insert a job into a comparator-sorted list, before the first
element that compares strictly greater. -/
def insertSorted (cmp : Job → Job → Int) (j : Job) : List Job → List Job
  | [] => [j]
  | x :: xs => if cmp j x < 0 then j :: x :: xs else x :: insertSorted cmp j xs

/-- Modelled from the spec: `pq_give` — insert, or fail (returning
`none`) when the queue is at capacity. -/
def pq_give (cmp : Job → Job → Int) (q : PQ) (j : Job) : Option PQ :=
  if q.cap ≤ q.items.length then none
  else some { q with items := insertSorted cmp j q.items }

/-- Modelled from the spec: `pq_take` — remove and return the minimum,
or `none` when empty. -/
def pq_take (q : PQ) : Option Job × PQ :=
  match q.items with
  | [] => (none, q)
  | x :: xs => (some x, { q with items := xs })

/-- Modelled from the spec: `pq_peek` — the minimum without removal. -/
def pq_peek (q : PQ) : Option Job :=
  q.items.head?

/-- Modelled from the spec: `pq_used` — current number of entries. -/
def pq_used (q : PQ) : Nat :=
  q.items.length

/-- Modelled from the spec: `pq_find` — linear scan by job id. -/
def pq_find (q : PQ) (id : Nat) : Option Job :=
  q.items.find? (fun j => j.id = id)

/-- Repeatedly `pq_take` until the queue is empty (with enough fuel):
the dequeue order of the queue. -/
def pq_take_fuel : Nat → PQ → List Job
  | 0, _ => []
  | fuel + 1, q =>
    match pq_take q with
    | (none, _) => []
    | (some j, q') => j :: pq_take_fuel fuel q'

/-- The full dequeue order of a queue, via `pq_take`. -/
def pq_drain (q : PQ) : List Job :=
  pq_take_fuel (pq_used q) q

/-- `a` is dequeued before `b`: it occurs at an earlier position of the
dequeue order. -/
def dequeuedBefore (q : PQ) (a b : Job) : Prop :=
  ∃ i j, i < j ∧ (pq_drain q).get? i = some a ∧ (pq_drain q).get? j = some b

/-- The sortedness invariant maintained by the queue: strictly
ascending in the comparator. -/
def PQOrdered (cmp : Job → Job → Int) (q : PQ) : Prop :=
  q.items.Pairwise (fun a b => cmp a b < 0)

theorem pq_drain_eq_items (q : PQ) : pq_drain q = q.items := by
  show pq_take_fuel q.items.length q = q.items
  rcases q with ⟨cap, items⟩
  induction items with
  | nil => rfl
  | cons x xs ih => simpa [pq_take_fuel, pq_take] using ih

/-- Membership through `insertSorted`. -/
theorem mem_insertSorted (cmp : Job → Job → Int) (j x : Job) (l : List Job) :
    x ∈ insertSorted cmp j l ↔ x = j ∨ x ∈ l := by
  induction l with
  | nil => simp [insertSorted]
  | cons y ys ih =>
    by_cases h : cmp j y < 0
    · simp [insertSorted, if_pos h]
    · simp only [insertSorted, if_neg h, List.mem_cons, ih]
      tauto

theorem length_insertSorted (cmp : Job → Job → Int) (j : Job) (l : List Job) :
    (insertSorted cmp j l).length = l.length + 1 := by
  induction l with
  | nil => rfl
  | cons y ys ih =>
    by_cases h : cmp j y < 0 <;> simp [insertSorted, h, ih]


/-!
## The protocol core state (prot.c, the newer version in src)

Global state of prot.c: the two heaps, the graveyard list, the waiting
connection queue, the counters and the drain flag.  Reservations
(reserve.c is not among the provided sources) are modelled from the
spec as an association list of (connection id, job).  The drain flag is
a separate C global (`drain_mode`), so it is passed to the dispatcher
separately rather than stored in this record.
-/

/-- The urgency threshold.  Modelled from the spec: prot.h is not among
the provided sources; §6 defines an urgent job as one with
`priority < 1024`. -/
def URGENT_THRESHOLD : Nat := 1024

/-- The process-wide core state of prot.c (newer version). -/
structure Srv where
  ready_q : PQ
  delay_q : PQ
  graveyard : List Job
  buried_ct : Nat
  urgent_ct : Nat
  waiting_ct : Nat
  wait_queue : List Nat
  reservations : List (Nat × Job)
  next_id : Nat
  now : Nat
  main_timeout : Nat
  put_ct : Nat
  peek_ct : Nat
  reserve_ct : Nat
  delete_ct : Nat
  release_ct : Nat
  bury_cmd_ct : Nat
  kick_cmd_ct : Nat
  stats_ct : Nat
  deriving Repr, DecidableEq

/-- Modelled from the spec: `reserve_job` of reserve.c (not among the
provided sources).  Per §4.6 the job moves to the worker's reservation
set with `deadline = now + ttr` and state reserved. -/
def reserve_job_upd (now : Nat) (j : Job) : Job :=
  { j with state := .reserved, deadline := now + j.ttr }

/-- The matching loop `process_queue` of prot.c, with explicit fuel
(one unit per waiting connection): while a connection is waiting, take
the minimum ready job; if none, stop; otherwise decrement the urgent
counter if applicable and reserve the job for the head waiting
connection (which leaves the waiting queue). -/
def process_queue_fuel : Nat → Srv → Srv
  | 0, s => s
  | fuel + 1, s =>
    match s.wait_queue with
    | [] => s
    | c :: rest =>
      match pq_take s.ready_q with
      | (none, _) => s
      | (some j, q') =>
        process_queue_fuel fuel
          { s with ready_q := q',
                   wait_queue := rest,
                   waiting_ct := s.waiting_ct - 1,
                   urgent_ct := if j.pri < URGENT_THRESHOLD then s.urgent_ct - 1
                                else s.urgent_ct,
                   reservations := s.reservations ++ [(c, reserve_job_upd s.now j)] }

/-- `process_queue` from prot.c. -/
def process_queue (s : Srv) : Srv :=
  process_queue_fuel s.wait_queue.length s

/-- `enqueue_job` from prot.c.  Returns the success flag, the updated
state and the job value as the C code left it (the C code mutates the
job object in place; on the delayed path the deadline is written before
the give, so it is updated even on failure).  On success the job has
been inserted into the delay or ready queue with its state field set,
the main timeout refreshed (delayed path) or the urgent counter bumped
(ready path), and the matching step has run. -/
def enqueue_job (s : Srv) (j : Job) (dl : Nat) : Bool × Srv × Job :=
  if dl ≠ 0 then
    match pq_give job_delay_cmp s.delay_q { j with deadline := s.now + dl,
                                                   state := JState.delayed } with
    | none => (false, s, { j with deadline := s.now + dl })
    | some q =>
      (true,
       process_queue { s with delay_q := q,
                              main_timeout := match pq_peek q with
                                              | some x => x.deadline
                                              | none => 0 },
       { j with deadline := s.now + dl, state := JState.delayed })
  else
    match pq_give job_pri_cmp s.ready_q { j with state := JState.ready } with
    | none => (false, s, j)
    | some q =>
      (true,
       process_queue { s with ready_q := q,
                              urgent_ct := if j.pri < URGENT_THRESHOLD then s.urgent_ct + 1
                                           else s.urgent_ct },
       { j with state := JState.ready })

/-- `bury_job` from prot.c: append to the graveyard tail, bump the
buried count, set the state and the per-job bury counter. -/
def bury_job (s : Srv) (j : Job) : Srv :=
  { s with graveyard := s.graveyard ++ [{ j with state := JState.buried,
                                                 bury_ct := j.bury_ct + 1 }],
           buried_ct := s.buried_ct + 1 }

/-- `kick_buried_job` from prot.c: take the graveyard head, bump its
kick counter, enqueue it ready; on failure re-bury it. -/
def kick_buried_job (s : Srv) : Bool × Srv :=
  match s.graveyard with
  | [] => (false, s)
  | j :: rest =>
    let s1 := { s with graveyard := rest, buried_ct := s.buried_ct - 1 }
    let j1 := { j with kick_ct := j.kick_ct + 1 }
    let r := enqueue_job s1 j1 0
    if r.1 then (true, r.2.1) else (false, bury_job r.2.1 r.2.2)

/-- `kick_delayed_job` from prot.c: take the delay-queue minimum, bump
its kick counter, enqueue it ready; on failure re-delay it, and as a
last resort bury it. -/
def kick_delayed_job (s : Srv) : Bool × Srv :=
  match pq_take s.delay_q with
  | (none, _) => (false, s)
  | (some j, q') =>
    let s1 := { s with delay_q := q' }
    let j1 := { j with kick_ct := j.kick_ct + 1 }
    let r := enqueue_job s1 j1 0
    if r.1 then (true, r.2.1)
    else
      let r2 := enqueue_job r.2.1 r.2.2 j.delay
      if r2.1 then (false, r2.2.1) else (false, bury_job r2.2.1 r2.2.2)

/-- `kick_buried_jobs` from prot.c: kick until `n` jobs moved or one
fails; return the number moved. -/
def kick_buried_jobs : Nat → Srv → Nat × Srv
  | 0, s => (0, s)
  | n + 1, s =>
    let r := kick_buried_job s
    if r.1 then
      let r2 := kick_buried_jobs n r.2
      (r2.1 + 1, r2.2)
    else (0, r.2)

/-- `kick_delayed_jobs` from prot.c. -/
def kick_delayed_jobs : Nat → Srv → Nat × Srv
  | 0, s => (0, s)
  | n + 1, s =>
    let r := kick_delayed_job s
    if r.1 then
      let r2 := kick_delayed_jobs n r.2
      (r2.1 + 1, r2.2)
    else (0, r.2)

/-- `kick_jobs` from prot.c: buried jobs take precedence; only when the
graveyard is empty are delayed jobs kicked. -/
def kick_jobs (n : Nat) (s : Srv) : Nat × Srv :=
  if s.graveyard ≠ [] then kick_buried_jobs n s else kick_delayed_jobs n s

/-- `peek_buried_job` from prot.c: the graveyard head, if any. -/
def peek_buried_job (s : Srv) : Option Job :=
  s.graveyard.head?

/-- `find_buried_job` from prot.c: linear scan of the graveyard. -/
def find_buried_job (s : Srv) (id : Nat) : Option Job :=
  s.graveyard.find? (fun j => j.id = id)

/-- Remove the first job with the given id from a list. -/
def remove_job_by_id (id : Nat) : List Job → Option (Job × List Job)
  | [] => none
  | j :: rest =>
    if j.id = id then some (j, rest)
    else
      match remove_job_by_id id rest with
      | none => none
      | some (x, l) => some (x, j :: l)

/-- `remove_buried_job` from prot.c (via `remove_this_buried_job`):
unlink the job from the graveyard and decrement the buried count. -/
def remove_buried_job (s : Srv) (id : Nat) : Option (Job × Srv) :=
  match remove_job_by_id id s.graveyard with
  | none => none
  | some (j, g) => some (j, { s with graveyard := g, buried_ct := s.buried_ct - 1 })

/-- Remove the first reservation of connection `c` holding job `id`. -/
def remove_res_aux (c id : Nat) : List (Nat × Job) → Option (Job × List (Nat × Job))
  | [] => none
  | p :: rest =>
    if p.1 = c ∧ p.2.id = id then some (p.2, rest)
    else
      match remove_res_aux c id rest with
      | none => none
      | some (j, l) => some (j, p :: l)

/-- Modelled from the spec: `remove_reserved_job` of reserve.c (not
among the provided sources).  It removes the job with the given id from
the reservation set of the issuing connection only — §4.5 release and
bury, which call the same function, are "only valid for jobs reserved
by this connection". -/
def remove_reserved_job (s : Srv) (c id : Nat) : Option (Job × Srv) :=
  match remove_res_aux c id s.reservations with
  | none => none
  | some (j, l) => some (j, { s with reservations := l })

/-!
## Reply strings

The fixed reply strings.  `serrs`/`cerrs` are given verbatim in prot.c;
`MSG_NOTFOUND`, `MSG_DELETED`, `MSG_RELEASED`, `MSG_BURIED` and
`MSG_INSERTED_FMT` live in prot.h, which is not among the provided
sources, and are modelled from the spec (§4.5).  Note that prot.c
passes `MSG_BURIED` to `reply()` verbatim with a precomputed constant
length, so whatever its exact text, it is one fixed string that cannot
depend on a job id.
-/

/-- `serrs` from prot.c: the three complete server-error replies. -/
def serrs : Nat → String
  | 0 => "SERVER_ERROR 0 out of memory\r\n"
  | 1 => "SERVER_ERROR 1 internal error\r\n"
  | _ => "SERVER_ERROR 2 draining\r\n"

/-- `cerrs` from prot.c: the four complete client-error replies. -/
def cerrs : Nat → String
  | 0 => "CLIENT_ERROR 0 bad command line format\r\n"
  | 1 => "CLIENT_ERROR 1 unknown command\r\n"
  | 2 => "CLIENT_ERROR 2 expected CR-LF after job body\r\n"
  | _ => "CLIENT_ERROR 3 job too big\r\n"

/-- Modelled from the spec: `MSG_NOTFOUND` of prot.h. -/
def MSG_NOTFOUND : String := "NOT_FOUND\r\n"

/-- Modelled from the spec: `MSG_DELETED` of prot.h. -/
def MSG_DELETED : String := "DELETED\r\n"

/-- Modelled from the spec: `MSG_RELEASED` of prot.h. -/
def MSG_RELEASED : String := "RELEASED\r\n"

/-- Modelled from the spec: `MSG_BURIED` of prot.h — a fixed string
(§4.5 release and bury respond with the bare word `BURIED`). -/
def MSG_BURIED : String := "BURIED\r\n"

/-- Modelled from the spec: `MSG_INSERTED_FMT` of prot.h, rendered by
`snprintf(..., j->id)` in `enqueue_incoming_job`: `INSERTED <id>`. -/
def MSG_INSERTED_FMT (id : Nat) : String :=
  "INSERTED " ++ toString id ++ "\r\n"

/-- The reply line built by `reply_job` in prot.c:
`"%s %llu %u %u\r\n"` with the word, id, pri and `body_size - 2`. -/
def reply_job_line (word : String) (j : Job) : String :=
  word ++ " " ++ toString j.id ++ " " ++ toString j.pri ++ " " ++
    toString (j.body_size - 2) ++ "\r\n"

/-- `job_copy` from job.c, in the value model: an identical record
(the fresh copy is not linked into any list; link state is modelled
separately). -/
def job_copy (j : Job) : Job := j

/-!
## Command handlers (dispatch_cmd of prot.c)
-/

/-- `enqueue_incoming_job` from prot.c, for a fully-read body.
`trailer_ok` tells whether the last two body bytes are CRLF.  On a bad
trailer the job is freed and `CLIENT_ERROR 2` sent.  Otherwise the job
is enqueued (put counter bumped either way); on success the reply is
`INSERTED <id>`, and when the queue has no room the job is buried and
the constant `MSG_BURIED` reply sent. -/
def enqueue_incoming_job (s : Srv) (j : Job) (trailer_ok : Bool) : Srv × String :=
  if ¬ trailer_ok then (s, cerrs 2)
  else
    let r := enqueue_job s j j.delay
    let s1 := { r.2.1 with put_ct := r.2.1.put_ct + 1 }
    if r.1 then (s1, MSG_INSERTED_FMT j.id)
    else (bury_job s1 r.2.2, MSG_BURIED)

/-- `OP_PEEK` from dispatch_cmd: copy the peeked buried job or, if
none, the next delayed job; `NOT_FOUND` when neither exists.  Returns
the new state, the reply line, and the copy handed to the send path
(`c->out_job`). -/
def op_peek (s : Srv) : Srv × String × Option Job :=
  match peek_buried_job s with
  | some b =>
    ({ s with peek_ct := s.peek_ct + 1 },
     reply_job_line "FOUND" (job_copy b), some (job_copy b))
  | none =>
    match pq_peek s.delay_q with
    | some d =>
      ({ s with peek_ct := s.peek_ct + 1 },
       reply_job_line "FOUND" (job_copy d), some (job_copy d))
    | none => (s, MSG_NOTFOUND, none)

/-- `peek_job` from prot.c: search ready, delayed, reserved (any
connection, waiting connections included), then buried. -/
def peek_job (s : Srv) (id : Nat) : Option Job :=
  match pq_find s.ready_q id with
  | some j => some j
  | none =>
    match pq_find s.delay_q id with
    | some j => some j
    | none =>
      match s.reservations.find? (fun p => p.2.id = id) with
      | some p => some p.2
      | none => find_buried_job s id

/-- `OP_PEEKJOB` from dispatch_cmd. -/
def op_peekjob (s : Srv) (id : Nat) : Srv × String × Option Job :=
  match peek_job s id with
  | none => (s, MSG_NOTFOUND, none)
  | some j =>
    ({ s with peek_ct := s.peek_ct + 1 },
     reply_job_line "FOUND" (job_copy j), some (job_copy j))

/-- `OP_DELETE` from dispatch_cmd: resolve among this connection's
reserved jobs, then the buried list; destroy and reply `DELETED`, or
reply `NOT_FOUND`. -/
def op_delete (s : Srv) (c id : Nat) : Srv × String :=
  match remove_reserved_job s c id with
  | some (_, s') => ({ s' with delete_ct := s'.delete_ct + 1 }, MSG_DELETED)
  | none =>
    match remove_buried_job s id with
    | some (_, s') => ({ s' with delete_ct := s'.delete_ct + 1 }, MSG_DELETED)
    | none => (s, MSG_NOTFOUND)

/-- `OP_RELEASE` from dispatch_cmd. -/
def op_release (s : Srv) (c id pri dl : Nat) : Srv × String :=
  match remove_reserved_job s c id with
  | none => (s, MSG_NOTFOUND)
  | some (j, s') =>
    let j1 := { j with pri := pri, delay := dl, release_ct := j.release_ct + 1 }
    let s2 := { s' with release_ct := s'.release_ct + 1 }
    let r := enqueue_job s2 j1 dl
    if r.1 then (r.2.1, MSG_RELEASED)
    else (bury_job r.2.1 r.2.2, MSG_BURIED)

/-- `OP_BURY` from dispatch_cmd. -/
def op_bury (s : Srv) (c id pri : Nat) : Srv × String :=
  match remove_reserved_job s c id with
  | none => (s, MSG_NOTFOUND)
  | some (j, s') =>
    let s2 := { s' with bury_cmd_ct := s'.bury_cmd_ct + 1 }
    (bury_job s2 { j with pri := pri }, MSG_BURIED)

/-- `OP_KICK` from dispatch_cmd: bump the kick counter, run
`kick_jobs` and reply `KICKED <count>` with the number actually
moved. -/
def op_kick (s : Srv) (n : Nat) : Srv × String :=
  let s1 := { s with kick_cmd_ct := s.kick_cmd_ct + 1 }
  let r := kick_jobs n s1
  (r.2, "KICKED " ++ toString r.1 ++ "\r\n")

/-- `OP_RESERVE` from dispatch_cmd: bump the reserve counter, append
the connection to the waiting queue (`wait_for_job`), and run the
matching step.  The `RESERVED` reply is sent by `reserve_job` when a
job is matched, so no immediate reply line is produced here. -/
def op_reserve (s : Srv) (c : Nat) : Srv :=
  process_queue { s with reserve_ct := s.reserve_ct + 1,
                         waiting_ct := s.waiting_ct + 1,
                         wait_queue := s.wait_queue ++ [c] }

/-- A parsed command, as dispatch_cmd distinguishes them.  For `put`
the body is abstracted to its size plus whether it finished with CRLF
and was fully read (this model covers the complete-command path of
`maybe_enqueue_incoming_job`). -/
inductive Op where
  | put (pri dl ttr body_size : Nat) (trailer_ok : Bool)
  | peek
  | peekjob (id : Nat)
  | reserve
  | delete (id : Nat)
  | release (id pri dl : Nat)
  | bury (id pri : Nat)
  | kick (n : Nat)
  | stats
  | jobstats (id : Nat)
  | unknown
  deriving Repr, DecidableEq

/-- Whether the command is a `put`. -/
def Op.isPut : Op → Bool
  | .put _ _ _ _ _ => true
  | _ => false

/-- `dispatch_cmd` from prot.c over parsed commands.  `drain` is the
process-wide `drain_mode` global, read only by the `put` branch; `c`
identifies the issuing connection.  The stats body text is elided (the
reply is represented by its `OK` status line); connection-close error
paths for malformed numbers are outside this model. -/
def dispatch_cmd (drain : Bool) (s : Srv) (c : Nat) : Op → Srv × String
  | .put pri dl ttr body_size trailer_ok =>
    if drain then (s, serrs 2)
    else
      let j : Job := { id := s.next_id, pri := pri, delay := dl, ttr := ttr,
                       deadline := 0, state := .invalid, timeout_ct := 0,
                       release_ct := 0, bury_ct := 0, kick_ct := 0,
                       body_size := body_size + 2 }
      enqueue_incoming_job { s with next_id := s.next_id + 1 } j trailer_ok
  | .peek =>
    let r := op_peek s
    (r.1, r.2.1)
  | .peekjob id =>
    let r := op_peekjob s id
    (r.1, r.2.1)
  | .reserve => (op_reserve s c, "")
  | .delete id => op_delete s c id
  | .release id pri dl => op_release s c id pri dl
  | .bury id pri => op_bury s c id pri
  | .kick n => op_kick s n
  | .stats => ({ s with stats_ct := s.stats_ct + 1 }, "OK")
  | .jobstats id =>
    match peek_job s id with
    | none => (s, MSG_NOTFOUND)
    | some _ => ({ s with stats_ct := s.stats_ct + 1 }, "OK")
  | .unknown => (s, cerrs 1)

/-- `enter_drain_mode` from prot.c: the signal handler sets the
process-wide flag. -/
def enter_drain_mode (_drain : Bool) : Bool := true

/-!
## The delay timer (h_delay of prot.c)
-/

/-- The drain loop of `h_delay`, with explicit fuel: while the delay
queue's minimum has `deadline ≤ t`, take it and enqueue it ready,
burying it when the ready queue has no room. -/
def h_delay_loop : Nat → Nat → Srv → Srv
  | 0, _, s => s
  | fuel + 1, t, s =>
    match pq_take s.delay_q with
    | (none, _) => s
    | (some j, q') =>
      if t < j.deadline then s
      else
        let s1 := { s with delay_q := q' }
        let r := enqueue_job s1 j 0
        if r.1 then h_delay_loop fuel t r.2.1
        else h_delay_loop fuel t (bury_job r.2.1 r.2.2)

/-- `h_delay` from prot.c: drain every expired delayed job into the
ready queue (burying on capacity failure), then set the main timeout
from the new delay-queue minimum, or 0 (cleared) if none remains. -/
def h_delay (s : Srv) : Srv :=
  let s' := h_delay_loop (pq_used s.delay_q) s.now s
  { s' with main_timeout := match pq_peek s'.delay_q with
                            | some j => j.deadline
                            | none => 0 }

/-!
## The earlier core (the older prot.c and conn.c in src)

`conn_close` is defined in the older conn.c, whose matching prot.c has
a single ready queue (no delay queue, no graveyard) and whose
connections hold at most one reserved job (`c->reserved_job`) and at
most one in-flight incoming job (`c->in_job`).  `conn_close` calls the
one-argument `enqueue_job` and ignores its result.
-/

/-- Core state of the older prot.c: the ready queue, the waiting
connection queue, and which job each connection has reserved. -/
structure OldSrv where
  ready_q : PQ
  wait_queue : List Nat
  reserved : List (Nat × Job)
  deriving Repr, DecidableEq

/-- The matching loop of the older prot.c, with explicit fuel:
`reserve_job` records the job as the waiting connection's
`reserved_job` and replies. -/
def old_process_queue_fuel : Nat → OldSrv → OldSrv
  | 0, s => s
  | fuel + 1, s =>
    match s.wait_queue with
    | [] => s
    | c :: rest =>
      match pq_take s.ready_q with
      | (none, _) => s
      | (some j, q') =>
        old_process_queue_fuel fuel
          { s with ready_q := q', wait_queue := rest,
                   reserved := s.reserved ++ [(c, j)] }

/-- `process_queue` from the older prot.c. -/
def old_process_queue (s : OldSrv) : OldSrv :=
  old_process_queue_fuel s.wait_queue.length s

/-- `enqueue_job` from the older prot.c: give to the ready queue; on
success run the matching step and return 1, otherwise return 0 with
the state untouched. -/
def old_enqueue_job (s : OldSrv) (j : Job) : Bool × OldSrv :=
  match pq_give job_pri_cmp s.ready_q j with
  | none => (false, s)
  | some q => (true, old_process_queue { s with ready_q := q })

/-- The per-connection fields of the older conn.c that `conn_close`
reads: the reserved job and the in-flight incoming job. -/
structure OldConn where
  reserved_job : Option Job
  in_job : Option Job
  deriving Repr, DecidableEq

/-- `conn_close` from the older conn.c: re-enqueue the reserved job
(the return value of `enqueue_job` is ignored) and free the in-flight
incoming job.  The freed `in_job` simply disappears from the model. -/
def conn_close (s : OldSrv) (c : OldConn) : OldSrv :=
  match c.reserved_job with
  | some j => (old_enqueue_job s j).2
  | none => s

/-!
## Witness fixtures
-/

/-- A job literal with the given id, priority, delay, ttr and deadline;
counters zero, body of two bytes (the CRLF trailer). -/
def mkJob (id pri dl ttr dline : Nat) (st : JState) : Job :=
  { id := id, pri := pri, delay := dl, ttr := ttr, deadline := dline,
    state := st, timeout_ct := 0, release_ct := 0, bury_ct := 0,
    kick_ct := 0, body_size := 2 }

/-- An empty server state with room for three jobs in each queue. -/
def srv0 : Srv :=
  { ready_q := { cap := 3, items := [] }, delay_q := { cap := 3, items := [] },
    graveyard := [], buried_ct := 0, urgent_ct := 0, waiting_ct := 0,
    wait_queue := [], reservations := [], next_id := 1, now := 100,
    main_timeout := 0, put_ct := 0, peek_ct := 0, reserve_ct := 0,
    delete_ct := 0, release_ct := 0, bury_cmd_ct := 0, kick_cmd_ct := 0,
    stats_ct := 0 }

/-- A heap in which every node points at node 0 (so node 1 is linked). -/
def heap0 : LHeap := fun _ => { prev := 0, next := 0 }

/-!
## C10 — intrusive list safety
-/

/-- C10: a job is in at most one doubly-linked list at a time:
`job_insert` is a no-op when the job is already linked; `job_remove`
returns null and changes nothing when it is not linked; after a
successful `job_remove` the job's `prev` and `next` point to itself, so
removing it again returns null and changes nothing. -/
theorem job_list_ops_safe (h : LHeap) (head j : Nat) :
    (job_list_any_p h j = true → job_insert h head j = h) ∧
    (job_list_any_p h j = false → job_remove h j = (none, h)) ∧
    (job_list_any_p h j = true →
      (job_remove h j).1 = some j ∧
      ((job_remove h j).2 j).prev = j ∧
      ((job_remove h j).2 j).next = j ∧
      job_remove (job_remove h j).2 j = (none, (job_remove h j).2)) := by
  refine ⟨?_, ?_, ?_⟩
  · intro hl
    simp [job_insert, hl]
  · intro hl
    simp [job_remove, hl]
  · intro hl
    have hj : ((job_remove h j).2) j = { prev := j, next := j } := by
      simp [job_remove, hl, setNext, setPrev]
    have hlink : job_list_any_p (job_remove h j).2 j = false := by
      simp [job_list_any_p, hj]
    have hnone : ∀ g : LHeap, job_list_any_p g j = false → job_remove g j = (none, g) := by
      intro g hg
      simp [job_remove, hg]
    exact ⟨by simp [job_remove, hl], by simp [hj], by simp [hj], hnone _ hlink⟩

/-- C10 witness: node 1 of `heap0` is linked; removing it succeeds,
leaves it self-linked, and a second removal is a no-op. -/
theorem job_list_ops_safe_witness :
    job_list_any_p heap0 1 = true ∧
    ((job_remove heap0 1).1 = some 1 ∧
     ((job_remove heap0 1).2 1).prev = 1 ∧
     ((job_remove heap0 1).2 1).next = 1 ∧
     job_remove (job_remove heap0 1).2 1 = (none, (job_remove heap0 1).2)) :=
  ⟨by decide, (job_list_ops_safe heap0 0 1).2.2 (by decide)⟩

/-!
## C4 — comparator numerics
-/

/-- C4 counterexample: the comparators do subtract the primary keys.
For `a.pri = 2^31` and `b.pri = 0` the wrapped difference converts to a
negative int, so `job_pri_cmp` reports `a < b` although the true
unsigned ordering has `b.pri < a.pri`. -/
theorem cmp_subtracts_primary_key_counterexample :
    (mkJob 2 0 0 0 0 JState.ready).pri < (mkJob 1 (2 ^ 31) 0 0 0 JState.ready).pri ∧
    job_pri_cmp (mkJob 1 (2 ^ 31) 0 0 0 JState.ready) (mkJob 2 0 0 0 0 JState.ready) < 0 := by
  constructor
  · decide
  · show job_pri_cmp (mkJob 1 (2 ^ 31) 0 0 0 JState.ready) (mkJob 2 0 0 0 0 JState.ready) < 0
    norm_num [job_pri_cmp, mkJob, toInt32]

/-- C4 (amended): only the `id` tie-break is computed by
branch-on-equal plus ordered compare, so its sign is always correct for
the full 64-bit id range; the primary keys (`pri`, `deadline`) are
compared by wrapping subtraction, whose sign matches the true unsigned
ordering only when the two keys differ by less than `2^31`. -/
theorem cmp_tiebreak_and_subtraction (a b : Job) :
    (a.pri = b.pri →
      ((job_pri_cmp a b < 0 ↔ a.id < b.id) ∧
       (0 < job_pri_cmp a b ↔ b.id < a.id) ∧
       (job_pri_cmp a b = 0 ↔ a.id = b.id))) ∧
    (a.deadline = b.deadline →
      ((job_delay_cmp a b < 0 ↔ a.id < b.id) ∧
       (0 < job_delay_cmp a b ↔ b.id < a.id) ∧
       (job_delay_cmp a b = 0 ↔ a.id = b.id))) ∧
    (a.pri ≠ b.pri → a.pri < 2 ^ 32 → b.pri < 2 ^ 32 →
      ((a.pri < b.pri → b.pri - a.pri < 2 ^ 31 → job_pri_cmp a b < 0) ∧
       (b.pri < a.pri → a.pri - b.pri < 2 ^ 31 → 0 < job_pri_cmp a b))) ∧
    (a.deadline ≠ b.deadline →
      ((a.deadline < b.deadline → b.deadline - a.deadline < 2 ^ 31 →
          job_delay_cmp a b < 0) ∧
       (b.deadline < a.deadline → a.deadline - b.deadline < 2 ^ 31 →
          0 < job_delay_cmp a b))) := by
  refine ⟨?_, ?_, ?_, ?_⟩
  · intro hpri
    simp only [job_pri_cmp, if_pos hpri]
    refine ⟨?_, ?_, ?_⟩ <;> split_ifs <;>
      first
      | omega
      | (simp only [false_iff, iff_false]; omega)
  · intro hd
    simp only [job_delay_cmp, if_pos hd]
    refine ⟨?_, ?_, ?_⟩ <;> split_ifs <;>
      first
      | omega
      | (simp only [false_iff, iff_false]; omega)
  · intro hne ha hb
    simp only [job_pri_cmp, if_neg hne, toInt32,
               Nat.mod_eq_of_lt ha, Nat.mod_eq_of_lt hb]
    constructor
    · intro hlt hrange
      have h1 : a.pri + 2 ^ 32 - b.pri < 2 ^ 32 := by omega
      rw [Nat.mod_eq_of_lt h1]
      split_ifs with h2
      · omega
      · omega
    · intro hlt hrange
      have h1 : (a.pri + 2 ^ 32 - b.pri) % 2 ^ 32 = a.pri - b.pri := by
        omega
      rw [h1]
      split_ifs with h2
      · omega
      · omega
  · intro hne
    simp only [job_delay_cmp, if_neg hne, intToInt32, toInt32]
    constructor
    · intro hlt hrange
      have h1 : ((a.deadline : Int) - (b.deadline : Int)) % 2 ^ 32
          = ((2 ^ 32 - (b.deadline - a.deadline) : Nat) : Int) := by
        omega
      rw [h1]
      split_ifs with h2 <;> omega
    · intro hlt hrange
      have h1 : ((a.deadline : Int) - (b.deadline : Int)) % 2 ^ 32
          = ((a.deadline - b.deadline : Nat) : Int) := by
        omega
      rw [h1]
      split_ifs with h2 <;> omega

/-- C4 witness: the amended statement at concrete jobs — equal
priorities order by id, and small unequal priorities order correctly. -/
theorem cmp_tiebreak_and_subtraction_witness :
    (job_pri_cmp (mkJob 1 5 0 0 0 JState.ready) (mkJob 2 5 0 0 0 JState.ready) < 0 ↔
      (1 : Nat) < 2) ∧
    (job_pri_cmp (mkJob 3 7 0 0 0 JState.ready) (mkJob 4 9 0 0 0 JState.ready) < 0) := by
  constructor
  · exact ((cmp_tiebreak_and_subtraction (mkJob 1 5 0 0 0 JState.ready)
      (mkJob 2 5 0 0 0 JState.ready)).1 rfl).1
  · exact (((cmp_tiebreak_and_subtraction (mkJob 3 7 0 0 0 JState.ready)
      (mkJob 4 9 0 0 0 JState.ready)).2.2.1 (by decide) (by decide)
      (by decide)).1 (by decide) (by decide))

/-!
## C2 — put replies
-/

/-- The job value returned by `enqueue_job` keeps the caller's id. -/
theorem enqueue_job_out_id (s : Srv) (j : Job) (dl : Nat) :
    ((enqueue_job s j dl).2.2).id = j.id := by
  unfold enqueue_job
  by_cases h : dl ≠ 0
  · simp only [if_pos h]
    cases hq : pq_give job_delay_cmp s.delay_q
        { j with deadline := s.now + dl, state := JState.delayed } <;> rfl
  · simp only [if_neg h]
    cases hq : pq_give job_pri_cmp s.ready_q { j with state := JState.ready } <;> rfl

/-- A server with a ready queue of capacity zero (always full). -/
def srvFull : Srv := { srv0 with ready_q := { cap := 0, items := [] } }

/-- C2 counterexample: a completed `put` whose queue is full buries the
job but replies with the fixed string `BURIED` — the reply does not
contain the job's id (the claimed reply for job 1 would be
`BURIED 1`). -/
theorem put_buried_reply_counterexample :
    (enqueue_incoming_job srvFull (mkJob 1 0 0 1 0 JState.invalid) true).2
      = "BURIED\r\n" ∧
    (enqueue_incoming_job srvFull (mkJob 1 0 0 1 0 JState.invalid) true).2
      ≠ "BURIED 1\r\n" := by
  constructor
  · rfl
  · decide

/-- C2 (amended): a completed `put` that cannot be inserted because the
destination queue is at capacity buries the job and replies with the
fixed string `BURIED` (which carries no id); a `put` whose job is
inserted is answered `INSERTED <id>` with the job's id. -/
theorem put_reply_spec (s : Srv) (j : Job) :
    ((enqueue_job s j j.delay).1 = true →
       enqueue_incoming_job s j true
         = ({ (enqueue_job s j j.delay).2.1 with
               put_ct := (enqueue_job s j j.delay).2.1.put_ct + 1 },
            MSG_INSERTED_FMT j.id)) ∧
    ((enqueue_job s j j.delay).1 = false →
       (enqueue_incoming_job s j true).2 = MSG_BURIED ∧
       ∃ x ∈ (enqueue_incoming_job s j true).1.graveyard,
         x.id = j.id ∧ x.state = JState.buried) ∧
    (j.delay = 0 →
       ((enqueue_job s j j.delay).1 = false ↔ s.ready_q.cap ≤ pq_used s.ready_q)) ∧
    (j.delay ≠ 0 →
       ((enqueue_job s j j.delay).1 = false ↔ s.delay_q.cap ≤ pq_used s.delay_q)) := by
  refine ⟨?_, ?_, ?_, ?_⟩
  · intro h
    simp [enqueue_incoming_job, h]
  · intro h
    refine ⟨by simp [enqueue_incoming_job, h], ?_⟩
    simp only [enqueue_incoming_job, h, Bool.false_eq_true, if_false, ite_false]
    simp only [bury_job]
    refine ⟨_, List.mem_append_right _ (List.mem_cons_self _ _), ?_, rfl⟩
    simpa using enqueue_job_out_id s j j.delay
  · intro h
    simp [enqueue_job, h, pq_give, pq_used]
    split_ifs with hc <;> simp [hc]
  · intro h
    simp only [enqueue_job, if_pos h, pq_give, pq_used]
    split_ifs with hc <;> simp [hc]

/-- C2 witness: in the empty three-slot server a `put` of job 1 with
delay 0 succeeds and is answered `INSERTED 1`. -/
theorem put_reply_spec_witness :
    (enqueue_job srv0 (mkJob 1 0 0 1 0 JState.invalid)
        (mkJob 1 0 0 1 0 JState.invalid).delay).1 = true ∧
    (enqueue_incoming_job srv0 (mkJob 1 0 0 1 0 JState.invalid) true).2
      = MSG_INSERTED_FMT 1 := by
  constructor
  · decide
  · have h := (put_reply_spec srv0 (mkJob 1 0 0 1 0 JState.invalid)).1 (by decide)
    have h2 := congrArg Prod.snd h
    simpa [mkJob] using h2

/-!
## C7 — peek precedence
-/

/-- C7: `peek` without an id returns a copy of the oldest buried job
(the graveyard head) when one exists; otherwise a copy of the
next-to-fire delayed job; otherwise `NOT_FOUND`.  Buried always takes
precedence over delayed. -/
theorem peek_precedence (s : Srv) :
    (∀ b rest, s.graveyard = b :: rest →
      op_peek s = ({ s with peek_ct := s.peek_ct + 1 },
                   reply_job_line "FOUND" (job_copy b), some (job_copy b))) ∧
    (s.graveyard = [] → ∀ d, pq_peek s.delay_q = some d →
      op_peek s = ({ s with peek_ct := s.peek_ct + 1 },
                   reply_job_line "FOUND" (job_copy d), some (job_copy d))) ∧
    (s.graveyard = [] → pq_peek s.delay_q = none →
      op_peek s = (s, MSG_NOTFOUND, none)) := by
  refine ⟨?_, ?_, ?_⟩
  · intro b rest hg
    simp [op_peek, peek_buried_job, hg]
  · intro hg d hd
    simp [op_peek, peek_buried_job, hg, hd]
  · intro hg hd
    simp [op_peek, peek_buried_job, hg, hd]

/-- C7 witness: with job 9 buried and job 4 delayed, `peek` returns the
buried job 9. -/
theorem peek_precedence_witness :
    op_peek { srv0 with
              graveyard := [mkJob 9 5 0 0 0 JState.buried],
              delay_q := { cap := 3, items := [mkJob 4 0 30 0 130 JState.delayed] } }
      = ({ srv0 with
           graveyard := [mkJob 9 5 0 0 0 JState.buried],
           delay_q := { cap := 3, items := [mkJob 4 0 30 0 130 JState.delayed] },
           peek_ct := 1 },
         reply_job_line "FOUND" (job_copy (mkJob 9 5 0 0 0 JState.buried)),
         some (job_copy (mkJob 9 5 0 0 0 JState.buried))) :=
  (peek_precedence _).1 (mkJob 9 5 0 0 0 JState.buried) [] rfl

/-!
## C8 — drain mode
-/

/-- C8: with the drain flag set, `put` is rejected with
`SERVER_ERROR 2 draining` and the state is untouched (no job allocated
or enqueued — in particular `next_id` does not advance); every command
other than `put` is dispatched identically whether or not the drain
flag is set, i.e. no other command consults the flag. -/
theorem drain_mode_gate (s : Srv) (c : Nat) :
    (∀ pri dl ttr bs tok,
      dispatch_cmd true s c (Op.put pri dl ttr bs tok) = (s, serrs 2)) ∧
    (∀ op : Op, op.isPut = false →
      dispatch_cmd true s c op = dispatch_cmd false s c op) := by
  constructor
  · intro pri dl ttr bs tok
    rfl
  · intro op hop
    cases op <;> first | rfl | simp [Op.isPut] at hop

/-- C8 witness: in the empty server, `delete 7` behaves identically
with and without the drain flag, and a drained `put` is refused with
the draining error. -/
theorem drain_mode_gate_witness :
    dispatch_cmd true srv0 1 (Op.delete 7) = dispatch_cmd false srv0 1 (Op.delete 7) ∧
    dispatch_cmd true srv0 1 (Op.put 0 0 60 5 true) = (srv0, serrs 2) :=
  ⟨(drain_mode_gate srv0 1).2 (Op.delete 7) rfl,
   (drain_mode_gate srv0 1).1 0 0 60 5 true⟩

/-!
## C3 — delete resolution order
-/

theorem remove_res_aux_none_of (c id : Nat) (l : List (Nat × Job))
    (h : ∀ p ∈ l, ¬(p.1 = c ∧ p.2.id = id)) : remove_res_aux c id l = none := by
  induction l with
  | nil => rfl
  | cons p rest ih =>
    have hp := h p (List.mem_cons_self p rest)
    have hr := ih (fun q hq => h q (List.mem_cons_of_mem p hq))
    simp [remove_res_aux, hp, hr]

theorem remove_res_aux_some_of (c id : Nat) (l : List (Nat × Job))
    (h : ∃ p ∈ l, p.1 = c ∧ p.2.id = id) :
    ∃ j l', remove_res_aux c id l = some (j, l') ∧ j.id = id ∧
      l'.length + 1 = l.length := by
  induction l with
  | nil => simp at h
  | cons p rest ih =>
    by_cases hp : p.1 = c ∧ p.2.id = id
    · exact ⟨p.2, rest, by simp [remove_res_aux, hp], hp.2, by simp⟩
    · obtain ⟨q, hq, hqc⟩ := h
      rcases List.mem_cons.mp hq with rfl | hq'
      · exact absurd hqc hp
      · obtain ⟨j, l', hr, hjid, hlen⟩ := ih ⟨q, hq', hqc⟩
        exact ⟨j, p :: l', by simp [remove_res_aux, hp, hr], hjid, by simp [← hlen]⟩

theorem remove_job_by_id_none_of (id : Nat) (l : List Job)
    (h : ∀ x ∈ l, x.id ≠ id) : remove_job_by_id id l = none := by
  induction l with
  | nil => rfl
  | cons x rest ih =>
    have hx := h x (List.mem_cons_self x rest)
    have hr := ih (fun y hy => h y (List.mem_cons_of_mem x hy))
    simp [remove_job_by_id, hx, hr]

theorem remove_job_by_id_some_of (id : Nat) (l : List Job)
    (h : ∃ x ∈ l, x.id = id) :
    ∃ j l', remove_job_by_id id l = some (j, l') ∧ j.id = id ∧
      l'.length + 1 = l.length := by
  induction l with
  | nil => simp at h
  | cons x rest ih =>
    by_cases hx : x.id = id
    · exact ⟨x, rest, by simp [remove_job_by_id, hx], hx, by simp⟩
    · obtain ⟨q, hq, hqc⟩ := h
      rcases List.mem_cons.mp hq with rfl | hq'
      · exact absurd hqc hx
      · obtain ⟨j, l', hr, hjid, hlen⟩ := ih ⟨q, hq', hqc⟩
        exact ⟨j, x :: l', by simp [remove_job_by_id, hx, hr], hjid, by simp [← hlen]⟩

/-- A job with id 7, as some other connection's reservation. -/
def jobR7 : Job := mkJob 7 0 0 0 0 JState.reserved

/-- A server in which connection 2 has job 7 reserved. -/
def srvOther : Srv := { srv0 with reservations := [(2, jobR7)] }

/-- C3 counterexample: job 7 is reserved by connection 2, yet a
`delete 7` from connection 1 replies `NOT_FOUND` and changes nothing —
there is no fallback that resolves ids among jobs reserved by other
connections. -/
theorem delete_ignores_other_conn_counterexample :
    (2, jobR7) ∈ srvOther.reservations ∧ jobR7.id = 7 ∧
    op_delete srvOther 1 7 = (srvOther, MSG_NOTFOUND) := by
  refine ⟨by simp [srvOther], rfl, rfl⟩

/-- C3 (amended): `delete <id>` resolves the id first among jobs
reserved by the issuing connection, then among buried jobs — jobs
reserved by other connections are not considered.  When found the job
is destroyed (its pool shrinks) and the reply is `DELETED`; otherwise
the reply is `NOT_FOUND` and the state is unchanged. -/
theorem delete_resolution (s : Srv) (c id : Nat) :
    ((∀ p ∈ s.reservations, ¬(p.1 = c ∧ p.2.id = id)) →
     (∀ x ∈ s.graveyard, x.id ≠ id) →
      op_delete s c id = (s, MSG_NOTFOUND)) ∧
    ((∃ p ∈ s.reservations, p.1 = c ∧ p.2.id = id) →
      (op_delete s c id).2 = MSG_DELETED ∧
      (op_delete s c id).1.reservations.length + 1 = s.reservations.length) ∧
    ((∀ p ∈ s.reservations, ¬(p.1 = c ∧ p.2.id = id)) →
     (∃ x ∈ s.graveyard, x.id = id) →
      (op_delete s c id).2 = MSG_DELETED ∧
      (op_delete s c id).1.graveyard.length + 1 = s.graveyard.length) := by
  refine ⟨?_, ?_, ?_⟩
  · intro hres hbur
    have h1 := remove_res_aux_none_of c id s.reservations hres
    have h2 := remove_job_by_id_none_of id s.graveyard hbur
    simp [op_delete, remove_reserved_job, remove_buried_job, h1, h2]
  · intro hres
    obtain ⟨j, l', hr, hjid, hlen⟩ := remove_res_aux_some_of c id s.reservations hres
    simp [op_delete, remove_reserved_job, hr, hlen]
  · intro hres hbur
    have h1 := remove_res_aux_none_of c id s.reservations hres
    obtain ⟨j, l', hr, hjid, hlen⟩ := remove_job_by_id_some_of id s.graveyard hbur
    simp [op_delete, remove_reserved_job, remove_buried_job, h1, hr, hlen]

/-- C3 witness: deleting a job the issuing connection itself has
reserved succeeds with `DELETED` and removes the reservation. -/
theorem delete_resolution_witness :
    (op_delete { srv0 with reservations := [(1, jobR7)] } 1 7).2 = MSG_DELETED ∧
    (op_delete { srv0 with reservations := [(1, jobR7)] } 1 7).1.reservations.length + 1
      = ({ srv0 with reservations := [(1, jobR7)] } : Srv).reservations.length :=
  (delete_resolution { srv0 with reservations := [(1, jobR7)] } 1 7).2.1
    ⟨(1, jobR7), by simp, rfl, rfl⟩

/-!
## C5 — connection close
-/

theorem old_process_queue_nil (s : OldSrv) (hw : s.wait_queue = []) :
    old_process_queue s = s := by
  simp [old_process_queue, hw, old_process_queue_fuel]

/-- A reserved job held by the closing connection. -/
def jobRes : Job := mkJob 42 0 0 0 0 JState.reserved

/-- An old-core state whose ready queue has capacity 0 (always full). -/
def oldFull : OldSrv :=
  { ready_q := { cap := 0, items := [] }, wait_queue := [], reserved := [] }

/-- A connection holding `jobRes` as its reserved job. -/
def oldConnR : OldConn := { reserved_job := some jobRes, in_job := none }

/-- C5 counterexample: closing a connection that holds a reserved job
while the ready queue is full leaves the state completely unchanged —
the failed `enqueue_job` is ignored, the job is not buried (this
version has no buried or delayed pool at all), and job 42 ends up in no
collection. -/
theorem conn_close_drops_job_counterexample :
    oldConnR.reserved_job = some jobRes ∧
    conn_close oldFull oldConnR = oldFull ∧
    (conn_close oldFull oldConnR).ready_q.items = [] :=
  ⟨rfl, rfl, rfl⟩

/-- C5 (amended): on connection close the reserved job is handed to
`enqueue_job`, whose return value is ignored: if the ready queue has
room the job lands in the ready queue (and is not destroyed), but if
the ready queue is full the close changes nothing and the job is left
in no collection. -/
theorem conn_close_requeue (s : OldSrv) (c : OldConn) (j : Job)
    (hres : c.reserved_job = some j) (hw : s.wait_queue = []) :
    (pq_used s.ready_q < s.ready_q.cap → j ∈ (conn_close s c).ready_q.items) ∧
    (s.ready_q.cap ≤ pq_used s.ready_q → conn_close s c = s) := by
  constructor
  · intro hroom
    simp only [pq_used] at hroom
    have hgive : pq_give job_pri_cmp s.ready_q j
        = some { s.ready_q with items := insertSorted job_pri_cmp j s.ready_q.items } := by
      simp only [pq_give, if_neg (Nat.not_le.mpr hroom)]
    simp only [conn_close, hres, old_enqueue_job, hgive]
    rw [old_process_queue_nil _ (by simp [hw])]
    simp [mem_insertSorted]
  · intro hfull
    simp only [pq_used] at hfull
    have hgive : pq_give job_pri_cmp s.ready_q j = none := by
      simp only [pq_give, if_pos hfull]
    simp [conn_close, hres, old_enqueue_job, hgive]

/-- C5 witness: with room in the ready queue, the closed connection's
reserved job 42 is back in the ready queue. -/
theorem conn_close_requeue_witness :
    jobRes ∈ (conn_close { ready_q := { cap := 2, items := [] },
                           wait_queue := [], reserved := [] } oldConnR).ready_q.items :=
  (conn_close_requeue { ready_q := { cap := 2, items := [] },
                        wait_queue := [], reserved := [] }
    oldConnR jobRes rfl rfl).1 (by decide)

/-!
## C1 — FIFO among equal-priority ready jobs
-/

/-- C1: in a ready queue ordered by `job_pri_cmp` (the invariant the
queue maintains), an equal-priority pair is dequeued by `pq_take` in
ascending id order: `a` comes out before `b` iff `a.id < b.id`.
Together with monotonic id assignment this is FIFO among equal
priorities, and it holds because the comparator breaks priority ties by
id. -/
theorem ready_queue_fifo (q : PQ) (hs : PQOrdered job_pri_cmp q) (a b : Job)
    (ha : a ∈ q.items) (hb : b ∈ q.items) (hpri : a.pri = b.pri)
    (hid : a.id ≠ b.id) :
    dequeuedBefore q a b ↔ a.id < b.id := by
  have hdrain : pq_drain q = q.items := pq_drain_eq_items q
  unfold dequeuedBefore
  rw [hdrain]
  constructor
  · rintro ⟨i, j, hij, hi, hj⟩
    obtain ⟨hi', hgi⟩ := List.get?_eq_some.mp hi
    obtain ⟨hj', hgj⟩ := List.get?_eq_some.mp hj
    have hcmp := List.pairwise_iff_get.mp hs ⟨i, hi'⟩ ⟨j, hj'⟩ hij
    rw [hgi, hgj] at hcmp
    simp only [job_pri_cmp, if_pos hpri] at hcmp
    split_ifs at hcmp with h1 h2
    · norm_num at hcmp
    · exact h2
    · norm_num at hcmp
  · intro hlt
    obtain ⟨i, hi⟩ := List.get_of_mem ha
    obtain ⟨j, hj⟩ := List.get_of_mem hb
    rcases lt_trichotomy (i : Nat) (j : Nat) with h | h | h
    · exact ⟨i, j, h,
        by rw [List.get?_eq_get i.isLt]; exact congrArg some (by simpa using hi),
        by rw [List.get?_eq_get j.isLt]; exact congrArg some (by simpa using hj)⟩
    · have hab : a = b := by
        rw [← hi, ← hj]
        congr 1
        exact Fin.ext h
      exact absurd (congrArg Job.id hab) hid
    · have hcmp := List.pairwise_iff_get.mp hs j i h
      rw [hj, hi] at hcmp
      simp only [job_pri_cmp, if_pos hpri.symm] at hcmp
      split_ifs at hcmp <;> omega

/-- C1 witness: two jobs of priority 5 with ids 1 and 2; the id-1 job
is dequeued first. -/
theorem ready_queue_fifo_witness :
    PQOrdered job_pri_cmp
      { cap := 3, items := [mkJob 1 5 0 0 0 JState.ready, mkJob 2 5 0 0 0 JState.ready] } ∧
    (dequeuedBefore
      { cap := 3, items := [mkJob 1 5 0 0 0 JState.ready, mkJob 2 5 0 0 0 JState.ready] }
      (mkJob 1 5 0 0 0 JState.ready) (mkJob 2 5 0 0 0 JState.ready) ↔ (1 : Nat) < 2) :=
  ⟨by unfold PQOrdered; decide,
   ready_queue_fifo _ (by unfold PQOrdered; decide) _ _ (by decide) (by decide)
     rfl (by decide)⟩

/-!
## C6 — kick
-/

theorem process_queue_nil (s : Srv) (hw : s.wait_queue = []) :
    process_queue s = s := by
  simp [process_queue, hw, process_queue_fuel]

theorem pq_give_some_items {cmp : Job → Job → Int} {q : PQ} {j : Job} {q' : PQ}
    (h : pq_give cmp q j = some q') :
    q'.items = insertSorted cmp j q.items := by
  unfold pq_give at h
  split_ifs at h
  cases h
  rfl

/-- Basic facts about `enqueue_job` when no connection is waiting: the
waiting queue stays empty, ready members are preserved, the graveyard
is untouched, and a successful delay-0 enqueue puts the job (marked
ready) into the ready queue. -/
theorem enqueue_job_nil_spec (s : Srv) (j : Job) (dl : Nat)
    (hw : s.wait_queue = []) :
    (enqueue_job s j dl).2.1.wait_queue = [] ∧
    (∀ x ∈ s.ready_q.items, x ∈ (enqueue_job s j dl).2.1.ready_q.items) ∧
    (enqueue_job s j dl).2.1.graveyard = s.graveyard ∧
    (dl = 0 → (enqueue_job s j dl).2.1.delay_q = s.delay_q) ∧
    (dl = 0 → (enqueue_job s j dl).1 = true →
      { j with state := JState.ready } ∈ (enqueue_job s j dl).2.1.ready_q.items) := by
  by_cases hdl : dl ≠ 0
  · rcases hq : pq_give job_delay_cmp s.delay_q
        { j with deadline := s.now + dl, state := JState.delayed } with _ | q
    · simp only [enqueue_job, if_pos hdl, hq]
      exact ⟨hw, fun x hx => hx, trivial, fun h0 => absurd h0 hdl,
             fun h0 => absurd h0 hdl⟩
    · simp only [enqueue_job, if_pos hdl, hq]
      rw [process_queue_nil _ (by simpa using hw)]
      exact ⟨by simpa using hw, fun x hx => hx, rfl, fun h0 => absurd h0 hdl,
             fun h0 => absurd h0 hdl⟩
  · rcases hq : pq_give job_pri_cmp s.ready_q { j with state := JState.ready } with _ | q
    · simp only [enqueue_job, if_neg hdl, hq]
      exact ⟨hw, fun x hx => hx, trivial, fun _ => trivial, by simp⟩
    · simp only [enqueue_job, if_neg hdl, hq]
      rw [process_queue_nil _ (by simpa using hw)]
      have hqi := pq_give_some_items hq
      refine ⟨by simpa using hw, ?_, rfl, fun _ => rfl, ?_⟩
      · intro x hx
        simp only [hqi, mem_insertSorted]
        exact Or.inr hx
      · intro _ _
        simp only [hqi, mem_insertSorted]
        exact Or.inl trivial

/-- One buried kick with no connection waiting: the waiting queue stays
empty and ready members persist; on success the graveyard head moved to
the ready queue with its kick counter bumped and the graveyard lost its
head; on failure with a nonempty graveyard the head was reburied. -/
theorem kick_buried_job_spec (s : Srv) (hw : s.wait_queue = []) :
    (kick_buried_job s).2.wait_queue = [] ∧
    (∀ x ∈ s.ready_q.items, x ∈ (kick_buried_job s).2.ready_q.items) ∧
    ((kick_buried_job s).1 = true → ∃ g rest, s.graveyard = g :: rest ∧
       (kick_buried_job s).2.graveyard = rest ∧
       ∃ x ∈ (kick_buried_job s).2.ready_q.items,
         x.id = g.id ∧ x.kick_ct = g.kick_ct + 1) ∧
    ((kick_buried_job s).1 = false → ∀ g rest, s.graveyard = g :: rest →
       ∃ x ∈ (kick_buried_job s).2.graveyard, x.id = g.id) := by
  rcases hg : s.graveyard with _ | ⟨g, rest⟩
  · simp only [kick_buried_job, hg]
    exact ⟨hw, fun x hx => hx, by simp, by simp [hg]⟩
  · have hw1 : ({ s with graveyard := rest, buried_ct := s.buried_ct - 1 } : Srv).wait_queue = [] := hw
    have hstep := enqueue_job_nil_spec { s with graveyard := rest, buried_ct := s.buried_ct - 1 } { g with kick_ct := g.kick_ct + 1 } 0 hw1
    cases hr : (enqueue_job { s with graveyard := rest, buried_ct := s.buried_ct - 1 } { g with kick_ct := g.kick_ct + 1 } 0).1 with
    | true =>
      simp only [kick_buried_job, hg, hr, if_true]
      refine ⟨hstep.1, hstep.2.1, ?_, ?_⟩
      · intro _
        refine ⟨g, rest, rfl, by simpa using hstep.2.2.1, ?_⟩
        exact ⟨_, hstep.2.2.2.2 rfl hr, rfl, rfl⟩
      · intro hcon
        exact absurd hcon (by simp)
    | false =>
      simp only [kick_buried_job, hg, hr, Bool.false_eq_true, if_false]
      refine ⟨by simp [bury_job, hstep.1], fun x hx => by
          simpa [bury_job] using hstep.2.1 x hx, ?_, ?_⟩
      · intro hcon
        exact absurd hcon (by simp)
      · intro _ g' rest' hg'
        injection hg' with hgg hrr
        subst hgg
        refine ⟨{ (enqueue_job { s with graveyard := rest, buried_ct := s.buried_ct - 1 } { g with kick_ct := g.kick_ct + 1 } 0).2.2 with state := JState.buried, bury_ct := (enqueue_job { s with graveyard := rest, buried_ct := s.buried_ct - 1 } { g with kick_ct := g.kick_ct + 1 } 0).2.2.bury_ct + 1 }, ?_, ?_⟩
        · simp only [bury_job]
          exact List.mem_append_right _ (List.mem_cons_self _ _)
        · have hid := enqueue_job_out_id { s with graveyard := rest, buried_ct := s.buried_ct - 1 } { g with kick_ct := g.kick_ct + 1 } 0
          simpa using hid

theorem pq_take_nil {q : PQ} (h : q.items = []) : pq_take q = (none, q) := by
  simp [pq_take, h]

theorem pq_take_cons {q : PQ} {d : Job} {tail : List Job} (h : q.items = d :: tail) :
    pq_take q = (some d, { q with items := tail }) := by
  simp [pq_take, h]

/-- One delayed kick with no connection waiting: the waiting queue
stays empty and ready members persist; on success the delay-queue
minimum moved to the ready queue with its kick counter bumped and the
delay queue lost its head. -/
theorem kick_delayed_job_spec (s : Srv) (hw : s.wait_queue = []) :
    (kick_delayed_job s).2.wait_queue = [] ∧
    (∀ x ∈ s.ready_q.items, x ∈ (kick_delayed_job s).2.ready_q.items) ∧
    ((kick_delayed_job s).1 = true → ∃ d tail, s.delay_q.items = d :: tail ∧
       (kick_delayed_job s).2.delay_q.items = tail ∧
       ∃ x ∈ (kick_delayed_job s).2.ready_q.items,
         x.id = d.id ∧ x.kick_ct = d.kick_ct + 1) := by
  rcases hd : s.delay_q.items with _ | ⟨d, tail⟩
  · simp only [kick_delayed_job, pq_take_nil hd]
    exact ⟨hw, fun x hx => hx, by simp⟩
  · have hpt := pq_take_cons hd
    have hw1 : ({ s with delay_q := { s.delay_q with items := tail } } : Srv).wait_queue = [] := hw
    have hstep := enqueue_job_nil_spec { s with delay_q := { s.delay_q with items := tail } } { d with kick_ct := d.kick_ct + 1 } 0 hw1
    cases hr : (enqueue_job { s with delay_q := { s.delay_q with items := tail } } { d with kick_ct := d.kick_ct + 1 } 0).1 with
    | true =>
      simp only [kick_delayed_job, hpt, hr, if_true]
      refine ⟨hstep.1, hstep.2.1, ?_⟩
      intro _
      refine ⟨d, tail, rfl, ?_, ⟨_, hstep.2.2.2.2 rfl hr, rfl, rfl⟩⟩
      have hdq := hstep.2.2.2.1 rfl
      rw [hdq]
    | false =>
      have hstep2 := enqueue_job_nil_spec (enqueue_job { s with delay_q := { s.delay_q with items := tail } } { d with kick_ct := d.kick_ct + 1 } 0).2.1 (enqueue_job { s with delay_q := { s.delay_q with items := tail } } { d with kick_ct := d.kick_ct + 1 } 0).2.2 d.delay hstep.1
      simp only [kick_delayed_job, hpt, hr, Bool.false_eq_true, if_false]
      cases hr2 : (enqueue_job (enqueue_job { s with delay_q := { s.delay_q with items := tail } } { d with kick_ct := d.kick_ct + 1 } 0).2.1 (enqueue_job { s with delay_q := { s.delay_q with items := tail } } { d with kick_ct := d.kick_ct + 1 } 0).2.2 d.delay).1 with
      | true =>
        simp only [hr2, if_true]
        exact ⟨hstep2.1, fun x hx => hstep2.2.1 x (hstep.2.1 x hx), by simp⟩
      | false =>
        simp only [hr2, Bool.false_eq_true, if_false]
        refine ⟨by simp [bury_job, hstep2.1], ?_, by simp⟩
        intro x hx
        simp only [bury_job]
        exact hstep2.2.1 x (hstep.2.1 x hx)

/-- The buried-kick loop with no connection waiting: at most `n` moves;
the first `k` graveyard jobs (in head order) land in the ready queue
with bumped kick counters; if the loop stopped early with a job left at
position `k`, that job was reburied. -/
theorem kick_buried_jobs_spec (n : Nat) : ∀ s : Srv, s.wait_queue = [] →
    (kick_buried_jobs n s).2.wait_queue = [] ∧
    (∀ x ∈ s.ready_q.items, x ∈ (kick_buried_jobs n s).2.ready_q.items) ∧
    (kick_buried_jobs n s).1 ≤ n ∧
    (∀ j ∈ s.graveyard.take (kick_buried_jobs n s).1,
       ∃ x ∈ (kick_buried_jobs n s).2.ready_q.items,
         x.id = j.id ∧ x.kick_ct = j.kick_ct + 1) ∧
    ((kick_buried_jobs n s).1 < n →
       ∀ g, s.graveyard.get? (kick_buried_jobs n s).1 = some g →
         ∃ x ∈ (kick_buried_jobs n s).2.graveyard, x.id = g.id) := by
  induction n with
  | zero =>
    intro s hw
    simp only [kick_buried_jobs]
    exact ⟨hw, fun x hx => hx, Nat.le_refl 0, by simp,
           fun h => absurd h (Nat.lt_irrefl 0)⟩
  | succ n ih =>
    intro s hw
    have hstep := kick_buried_job_spec s hw
    cases hr : (kick_buried_job s).1 with
    | true =>
      obtain ⟨g, rest, hg, hgrave, x0, hx0mem, hx0id, hx0k⟩ := hstep.2.2.1 hr
      have ihs := ih (kick_buried_job s).2 hstep.1
      have h4 := ihs.2.2.2.1
      have h5 := ihs.2.2.2.2
      rw [hgrave] at h4 h5
      simp only [kick_buried_jobs, hr, if_true]
      refine ⟨ihs.1, fun x hx => ihs.2.1 x (hstep.2.1 x hx),
              Nat.succ_le_succ ihs.2.2.1, ?_, ?_⟩
      · rw [hg]
        intro j hj
        simp only [List.take_succ_cons] at hj
        rcases List.mem_cons.mp hj with rfl | hj'
        · exact ⟨x0, ihs.2.1 x0 hx0mem, hx0id, hx0k⟩
        · exact h4 j hj'
      · intro hlt g' hget
        rw [hg] at hget
        simp only [List.get?_cons_succ] at hget
        exact h5 (by omega) g' hget
    | false =>
      simp only [kick_buried_jobs, hr, Bool.false_eq_true, if_false]
      refine ⟨hstep.1, hstep.2.1, Nat.zero_le _, by simp, ?_⟩
      intro _ g hget
      rcases hgl : s.graveyard with _ | ⟨g0, rest0⟩
      · rw [hgl] at hget
        simp at hget
      · rw [hgl] at hget
        simp only [List.get?_cons_zero, Option.some_inj] at hget
        subst hget
        exact hstep.2.2.2 hr g0 rest0 hgl

/-- The delayed-kick loop with no connection waiting: at most `n`
moves; the first `k` delay-queue jobs (earliest-deadline order) land in
the ready queue with bumped kick counters. -/
theorem kick_delayed_jobs_spec (n : Nat) : ∀ s : Srv, s.wait_queue = [] →
    (kick_delayed_jobs n s).2.wait_queue = [] ∧
    (∀ x ∈ s.ready_q.items, x ∈ (kick_delayed_jobs n s).2.ready_q.items) ∧
    (kick_delayed_jobs n s).1 ≤ n ∧
    (∀ j ∈ s.delay_q.items.take (kick_delayed_jobs n s).1,
       ∃ x ∈ (kick_delayed_jobs n s).2.ready_q.items,
         x.id = j.id ∧ x.kick_ct = j.kick_ct + 1) := by
  induction n with
  | zero =>
    intro s hw
    simp only [kick_delayed_jobs]
    exact ⟨hw, fun x hx => hx, Nat.le_refl 0, by simp⟩
  | succ n ih =>
    intro s hw
    have hstep := kick_delayed_job_spec s hw
    cases hr : (kick_delayed_job s).1 with
    | true =>
      obtain ⟨d, tail, hd, hdq, x0, hx0mem, hx0id, hx0k⟩ := hstep.2.2 hr
      have ihs := ih (kick_delayed_job s).2 hstep.1
      have h4 := ihs.2.2.2
      rw [hdq] at h4
      simp only [kick_delayed_jobs, hr, if_true]
      refine ⟨ihs.1, fun x hx => ihs.2.1 x (hstep.2.1 x hx),
              Nat.succ_le_succ ihs.2.2.1, ?_⟩
      rw [hd]
      intro j hj
      simp only [List.take_succ_cons] at hj
      rcases List.mem_cons.mp hj with rfl | hj'
      · exact ⟨x0, ihs.2.1 x0 hx0mem, hx0id, hx0k⟩
      · exact h4 j hj'
    | false =>
      simp only [kick_delayed_jobs, hr, Bool.false_eq_true, if_false]
      exact ⟨hstep.1, hstep.2.1, Nat.zero_le _, by simp⟩

/-- C6: `kick <n>` replies `KICKED k` where `k` is the number of jobs
actually moved, and `k ≤ n`.  When the graveyard is non-empty the moved
jobs are the first `k` from the graveyard head, each landing in the
ready queue with `kick_ct` incremented by one, and a job that failed to
fit (stopping the count early) was reburied; only when the graveyard is
empty are jobs taken from the minimum (earliest-deadline) side of the
delay queue and moved to the ready queue regardless of their deadline,
each with `kick_ct` incremented.  (Stated with no waiting workers, so
that moved jobs remain observable in the ready queue.) -/
theorem kick_semantics (s : Srv) (n : Nat) (hw : s.wait_queue = []) :
    op_kick s n
      = ((kick_jobs n { s with kick_cmd_ct := s.kick_cmd_ct + 1 }).2,
         "KICKED " ++ toString (kick_jobs n { s with kick_cmd_ct := s.kick_cmd_ct + 1 }).1 ++ "\r\n") ∧
    (kick_jobs n { s with kick_cmd_ct := s.kick_cmd_ct + 1 }).1 ≤ n ∧
    (s.graveyard ≠ [] →
      (∀ j ∈ s.graveyard.take (kick_jobs n { s with kick_cmd_ct := s.kick_cmd_ct + 1 }).1,
         ∃ x ∈ (kick_jobs n { s with kick_cmd_ct := s.kick_cmd_ct + 1 }).2.ready_q.items,
           x.id = j.id ∧ x.kick_ct = j.kick_ct + 1) ∧
      ((kick_jobs n { s with kick_cmd_ct := s.kick_cmd_ct + 1 }).1 < n →
         ∀ g, s.graveyard.get? (kick_jobs n { s with kick_cmd_ct := s.kick_cmd_ct + 1 }).1 = some g →
           ∃ x ∈ (kick_jobs n { s with kick_cmd_ct := s.kick_cmd_ct + 1 }).2.graveyard, x.id = g.id)) ∧
    (s.graveyard = [] →
      ∀ j ∈ s.delay_q.items.take (kick_jobs n { s with kick_cmd_ct := s.kick_cmd_ct + 1 }).1,
        ∃ x ∈ (kick_jobs n { s with kick_cmd_ct := s.kick_cmd_ct + 1 }).2.ready_q.items,
          x.id = j.id ∧ x.kick_ct = j.kick_ct + 1) := by
  have hw1 : ({ s with kick_cmd_ct := s.kick_cmd_ct + 1 } : Srv).wait_queue = [] := hw
  by_cases hg : s.graveyard = []
  · have hkj : kick_jobs n { s with kick_cmd_ct := s.kick_cmd_ct + 1 }
        = kick_delayed_jobs n { s with kick_cmd_ct := s.kick_cmd_ct + 1 } := by
      simp [kick_jobs, hg]
    have hspec := kick_delayed_jobs_spec n { s with kick_cmd_ct := s.kick_cmd_ct + 1 } hw1
    refine ⟨rfl, ?_, fun hcon => absurd hg hcon, fun _ => ?_⟩
    · rw [hkj]
      exact hspec.2.2.1
    · rw [hkj]
      exact hspec.2.2.2
  · have hkj : kick_jobs n { s with kick_cmd_ct := s.kick_cmd_ct + 1 }
        = kick_buried_jobs n { s with kick_cmd_ct := s.kick_cmd_ct + 1 } := by
      simp [kick_jobs, hg]
    have hspec := kick_buried_jobs_spec n { s with kick_cmd_ct := s.kick_cmd_ct + 1 } hw1
    refine ⟨rfl, ?_, fun _ => ⟨?_, ?_⟩, fun hcon => absurd hcon hg⟩
    · rw [hkj]
      exact hspec.2.2.1
    · rw [hkj]
      exact hspec.2.2.2.1
    · rw [hkj]
      exact hspec.2.2.2.2

/-- A server with jobs 3 and 4 buried. -/
def srvKick : Srv :=
  { srv0 with graveyard := [mkJob 3 0 0 0 0 JState.buried, mkJob 4 0 0 0 0 JState.buried],
              buried_ct := 2 }

/-- C6 witness: with jobs 3 and 4 buried, `kick 5` replies with the
actual number of jobs moved, which is at most 5. -/
theorem kick_semantics_witness :
    op_kick srvKick 5
      = ((kick_jobs 5 { srvKick with kick_cmd_ct := srvKick.kick_cmd_ct + 1 }).2,
         "KICKED " ++ toString (kick_jobs 5 { srvKick with kick_cmd_ct := srvKick.kick_cmd_ct + 1 }).1 ++ "\r\n") ∧
    (kick_jobs 5 { srvKick with kick_cmd_ct := srvKick.kick_cmd_ct + 1 }).1 ≤ 5 :=
  ⟨(kick_semantics srvKick 5 rfl).1, (kick_semantics srvKick 5 rfl).2.1⟩

/-!
## C9 — delay timer
-/

/-- The job with the given id is in the ready queue, the graveyard, or
some connection's reservation set. -/
def SomewhereId (s : Srv) (i : Nat) : Prop :=
  (∃ x ∈ s.ready_q.items, x.id = i) ∨ (∃ x ∈ s.graveyard, x.id = i) ∨
  (∃ p ∈ s.reservations, p.2.id = i)

/-- The matching loop never touches the delay queue or the graveyard,
only grows the reservation list, and every ready job either stays ready
or becomes some connection's reservation (with its id preserved). -/
theorem process_queue_fuel_spec (f : Nat) : ∀ s : Srv,
    (process_queue_fuel f s).delay_q = s.delay_q ∧
    (process_queue_fuel f s).graveyard = s.graveyard ∧
    (∀ p ∈ s.reservations, p ∈ (process_queue_fuel f s).reservations) ∧
    (∀ x ∈ s.ready_q.items, x ∈ (process_queue_fuel f s).ready_q.items ∨
       ∃ p ∈ (process_queue_fuel f s).reservations, p.2.id = x.id) := by
  induction f with
  | zero =>
    intro s
    exact ⟨rfl, rfl, fun p hp => hp, fun x hx => Or.inl hx⟩
  | succ f ih =>
    intro s
    rcases hwq : s.wait_queue with _ | ⟨c, rest⟩
    · simp only [process_queue_fuel, hwq]
      exact ⟨by trivial, by trivial, fun p hp => hp, fun x hx => Or.inl hx⟩
    · rcases hri : s.ready_q.items with _ | ⟨r0, rtail⟩
      · simp only [process_queue_fuel, hwq, pq_take_nil hri]
        exact ⟨by trivial, by trivial, fun p hp => hp,
               fun x hx => (List.not_mem_nil x hx).elim⟩
      · have hpt := pq_take_cons hri
        simp only [process_queue_fuel, hwq, hpt]
        have ihs := ih { s with ready_q := { s.ready_q with items := rtail }, wait_queue := rest, waiting_ct := s.waiting_ct - 1, urgent_ct := if r0.pri < URGENT_THRESHOLD then s.urgent_ct - 1 else s.urgent_ct, reservations := s.reservations ++ [(c, reserve_job_upd s.now r0)] }
        refine ⟨ihs.1, ihs.2.1, ?_, ?_⟩
        · intro p hp
          exact ihs.2.2.1 p (List.mem_append_left _ hp)
        · intro x hx
          rcases List.mem_cons.mp hx with rfl | hx'
          · right
            refine ⟨(c, reserve_job_upd s.now x), ?_, rfl⟩
            exact ihs.2.2.1 _ (List.mem_append_right _ (List.mem_cons_self _ _))
          · exact ihs.2.2.2 x hx'

/-- `process_queue` keeps every job reachable: the delay queue and the
graveyard are untouched and ready jobs stay ready or become
reservations. -/
theorem process_queue_somewhere (s : Srv) (i : Nat) (h : SomewhereId s i) :
    SomewhereId (process_queue s) i := by
  have hspec := process_queue_fuel_spec s.wait_queue.length s
  rcases h with ⟨x, hx, hid⟩ | ⟨x, hx, hid⟩ | ⟨p, hp, hid⟩
  · rcases hspec.2.2.2 x hx with hx' | ⟨p, hp, hpid⟩
    · exact Or.inl ⟨x, hx', hid⟩
    · exact Or.inr (Or.inr ⟨p, hp, hpid.trans hid⟩)
  · refine Or.inr (Or.inl ⟨x, ?_, hid⟩)
    rw [show (process_queue s).graveyard = s.graveyard from hspec.2.1]
    exact hx
  · exact Or.inr (Or.inr ⟨p, hspec.2.2.1 p hp, hid⟩)

/-- A delay-0 `enqueue_job` never touches the delay queue; on success
the job is reachable (ready or reserved); reachability of other jobs is
preserved; on failure the state is returned untouched. -/
theorem enqueue_zero_facts (s : Srv) (j : Job) :
    (enqueue_job s j 0).2.1.delay_q = s.delay_q ∧
    ((enqueue_job s j 0).1 = true → SomewhereId (enqueue_job s j 0).2.1 j.id) ∧
    (∀ i, SomewhereId s i → SomewhereId (enqueue_job s j 0).2.1 i) ∧
    ((enqueue_job s j 0).1 = false → (enqueue_job s j 0).2.1 = s) := by
  rcases hq : pq_give job_pri_cmp s.ready_q { j with state := JState.ready } with _ | q
  · simp only [enqueue_job, if_neg (by simp : ¬(0 : Nat) ≠ 0), hq]
    exact ⟨by trivial, by simp, fun i h => h, fun _ => by trivial⟩
  · have hqi := pq_give_some_items hq
    have hpq := process_queue_fuel_spec ({ s with ready_q := q, urgent_ct := if j.pri < URGENT_THRESHOLD then s.urgent_ct + 1 else s.urgent_ct } : Srv).wait_queue.length { s with ready_q := q, urgent_ct := if j.pri < URGENT_THRESHOLD then s.urgent_ct + 1 else s.urgent_ct }
    simp only [enqueue_job, if_neg (by simp : ¬(0 : Nat) ≠ 0), hq]
    refine ⟨hpq.1, ?_, ?_, by simp⟩
    · intro _
      apply process_queue_somewhere
      left
      refine ⟨{ j with state := JState.ready }, ?_, rfl⟩
      simp only [hqi, mem_insertSorted]
      exact Or.inl trivial
    · intro i h
      apply process_queue_somewhere
      rcases h with ⟨x, hx, hid⟩ | ⟨x, hx, hid⟩ | ⟨p, hp, hid⟩
      · left
        refine ⟨x, ?_, hid⟩
        simp only [hqi, mem_insertSorted]
        exact Or.inr hx
      · exact Or.inr (Or.inl ⟨x, hx, hid⟩)
      · exact Or.inr (Or.inr ⟨p, hp, hid⟩)

/-- `bury_job` never touches the delay queue, makes the buried job
reachable, and preserves reachability. -/
theorem bury_job_facts (s : Srv) (j : Job) :
    (bury_job s j).delay_q = s.delay_q ∧
    SomewhereId (bury_job s j) j.id ∧
    (∀ i, SomewhereId s i → SomewhereId (bury_job s j) i) := by
  refine ⟨rfl, ?_, ?_⟩
  · right
    left
    refine ⟨{ j with state := JState.buried, bury_ct := j.bury_ct + 1 }, ?_, rfl⟩
    simp only [bury_job]
    exact List.mem_append_right _ (List.mem_cons_self _ _)
  · intro i h
    rcases h with ⟨x, hx, hid⟩ | ⟨x, hx, hid⟩ | ⟨p, hp, hid⟩
    · exact Or.inl ⟨x, hx, hid⟩
    · refine Or.inr (Or.inl ⟨x, ?_, hid⟩)
      simp only [bury_job]
      exact List.mem_append_left _ hx
    · exact Or.inr (Or.inr ⟨p, hp, hid⟩)

/-- In a deadline-sorted list, dropping the expired prefix is the same
as keeping exactly the unexpired jobs. -/
theorem dropWhile_expired_eq_filter (t : Nat) : ∀ l : List Job,
    l.Pairwise (fun a b => a.deadline ≤ b.deadline) →
    l.dropWhile (fun j => decide (j.deadline ≤ t))
      = l.filter (fun j => decide (t < j.deadline)) := by
  intro l
  induction l with
  | nil => intro _; rfl
  | cons d tail ih =>
    intro hs
    by_cases hdt : d.deadline ≤ t
    · have h1 : decide (d.deadline ≤ t) = true := by simpa using hdt
      have h2 : decide (t < d.deadline) = false := by simp; omega
      simp only [List.dropWhile_cons, List.filter_cons, h1, h2, if_true,
                 Bool.false_eq_true, if_false]
      exact ih (List.pairwise_cons.mp hs).2
    · have h1 : decide (d.deadline ≤ t) = false := by simp; omega
      have h2 : decide (t < d.deadline) = true := by simp; omega
      simp only [List.dropWhile_cons, List.filter_cons, h1, h2, if_true,
                 Bool.false_eq_true, if_false]
      rw [List.filter_eq_self.mpr]
      intro x hx
      have := (List.pairwise_cons.mp hs).1 x hx
      simp
      omega

/-- The `h_delay` drain loop, given enough fuel: the delay queue is
left with the expired prefix dropped; reachability is preserved; and
(for a deadline-sorted queue) every expired delayed job ends up
reachable — in the ready queue, the graveyard, or a reservation. -/
theorem h_delay_loop_spec (t : Nat) : ∀ (fuel : Nat) (s : Srv),
    s.delay_q.items.length ≤ fuel →
    ((h_delay_loop fuel t s).delay_q.items
        = s.delay_q.items.dropWhile (fun j => decide (j.deadline ≤ t)) ∧
     (∀ i, SomewhereId s i → SomewhereId (h_delay_loop fuel t s) i) ∧
     (s.delay_q.items.Pairwise (fun a b => a.deadline ≤ b.deadline) →
       ∀ j ∈ s.delay_q.items, j.deadline ≤ t →
         SomewhereId (h_delay_loop fuel t s) j.id)) := by
  intro fuel
  induction fuel with
  | zero =>
    intro s hlen
    have hnil : s.delay_q.items = [] := List.length_eq_zero.mp (Nat.le_zero.mp hlen)
    refine ⟨by simp [h_delay_loop, hnil], fun i h => h, ?_⟩
    intro _ j hj _
    rw [hnil] at hj
    exact absurd hj (List.not_mem_nil j)
  | succ fuel ih =>
    intro s hlen
    rcases hd : s.delay_q.items with _ | ⟨d, tail⟩
    · simp only [h_delay_loop, pq_take_nil hd]
      exact ⟨by simp [hd], fun i h => h,
             fun _ j hj _ => absurd hj (List.not_mem_nil j)⟩
    · have hpt := pq_take_cons hd
      have hlen' : tail.length ≤ fuel := by
        rw [hd] at hlen
        simpa using hlen
      by_cases hexp : t < d.deadline
      · simp only [h_delay_loop, hpt, if_pos hexp]
        refine ⟨?_, fun i h => h, ?_⟩
        · have h1 : decide (d.deadline ≤ t) = false := by simp; omega
          rw [hd]
          simp [List.dropWhile_cons, h1]
        · intro hpw j hj hjt
          rcases List.mem_cons.mp hj with rfl | hj'
          · omega
          · have := (List.pairwise_cons.mp hpw).1 j hj'
            omega
      · simp only [h_delay_loop, hpt, if_neg hexp]
        have hef := enqueue_zero_facts { s with delay_q := { s.delay_q with items := tail } } d
        cases hr : (enqueue_job { s with delay_q := { s.delay_q with items := tail } } d 0).1 with
        | true =>
          simp only [hr, if_true]
          have hE : (enqueue_job { s with delay_q := { s.delay_q with items := tail } } d 0).2.1.delay_q.items = tail := by rw [hef.1]
          have ihs := ih (enqueue_job { s with delay_q := { s.delay_q with items := tail } } d 0).2.1 (by rw [hE]; exact hlen')
          refine ⟨?_, ?_, ?_⟩
          · rw [ihs.1, hE]
            have h1 : decide (d.deadline ≤ t) = true := by simp; omega
            simp [List.dropWhile_cons, h1]
          · intro i h
            exact ihs.2.1 i (hef.2.2.1 i h)
          · intro hpw j hj hjt
            rcases List.mem_cons.mp hj with rfl | hj'
            · exact ihs.2.1 j.id (hef.2.1 hr)
            · have hpwE : (enqueue_job { s with delay_q := { s.delay_q with items := tail } } d 0).2.1.delay_q.items.Pairwise (fun a b => a.deadline ≤ b.deadline) := by
                rw [hE]
                exact (List.pairwise_cons.mp hpw).2
              refine ihs.2.2 hpwE j ?_ hjt
              rw [hE]
              exact hj'
        | false =>
          simp only [hr, Bool.false_eq_true, if_false]
          have hsame := hef.2.2.2 hr
          have hbf := bury_job_facts (enqueue_job { s with delay_q := { s.delay_q with items := tail } } d 0).2.1 (enqueue_job { s with delay_q := { s.delay_q with items := tail } } d 0).2.2
          have hB : (bury_job (enqueue_job { s with delay_q := { s.delay_q with items := tail } } d 0).2.1 (enqueue_job { s with delay_q := { s.delay_q with items := tail } } d 0).2.2).delay_q.items = tail := by
            rw [hbf.1, hsame]
          have ihs := ih (bury_job (enqueue_job { s with delay_q := { s.delay_q with items := tail } } d 0).2.1 (enqueue_job { s with delay_q := { s.delay_q with items := tail } } d 0).2.2) (by rw [hB]; exact hlen')
          refine ⟨?_, ?_, ?_⟩
          · rw [ihs.1, hB]
            have h1 : decide (d.deadline ≤ t) = true := by simp; omega
            simp [List.dropWhile_cons, h1]
          · intro i h
            have hEi : SomewhereId (enqueue_job { s with delay_q := { s.delay_q with items := tail } } d 0).2.1 i := by
              rw [hsame]
              exact h
            exact ihs.2.1 i (hbf.2.2 i hEi)
          · intro hpw j hj hjt
            rcases List.mem_cons.mp hj with rfl | hj'
            · have hout := enqueue_job_out_id { s with delay_q := { s.delay_q with items := tail } } j 0
              have hplace := hbf.2.1
              rw [hout] at hplace
              exact ihs.2.1 j.id hplace
            · have hpwB : (bury_job (enqueue_job { s with delay_q := { s.delay_q with items := tail } } d 0).2.1 (enqueue_job { s with delay_q := { s.delay_q with items := tail } } d 0).2.2).delay_q.items.Pairwise (fun a b => a.deadline ≤ b.deadline) := by
                rw [hB]
                exact (List.pairwise_cons.mp hpw).2
              refine ihs.2.2 hpwB j ?_ hjt
              rw [hB]
              exact hj'

/-- C9: when the delay timer fires, every delayed job whose deadline
has passed (deadline ≤ now) is removed from the delay queue and ends up
reachable — in the ready queue, or buried when the ready queue was
full, or already handed to a waiting worker by the matching step run on
each transfer; no delayed job with a future deadline is moved (the
remaining delay queue is exactly the unexpired jobs); and the next
wakeup is set to the new delay-queue minimum deadline, or cleared (0)
when the delay queue is empty. -/
theorem delay_timer_spec (s : Srv)
    (hs : s.delay_q.items.Pairwise (fun a b => a.deadline ≤ b.deadline)) :
    (h_delay s).delay_q.items
      = s.delay_q.items.filter (fun j => decide (s.now < j.deadline)) ∧
    (∀ j ∈ s.delay_q.items, j.deadline ≤ s.now → SomewhereId (h_delay s) j.id) ∧
    ((h_delay s).main_timeout
      = match pq_peek (h_delay s).delay_q with
        | some j => j.deadline
        | none => 0) := by
  have hloop := h_delay_loop_spec s.now (pq_used s.delay_q) s (Nat.le_refl _)
  refine ⟨?_, ?_, ?_⟩
  · show (h_delay_loop (pq_used s.delay_q) s.now s).delay_q.items = _
    rw [hloop.1, dropWhile_expired_eq_filter s.now _ hs]
  · intro j hj hjt
    exact hloop.2.2 hs j hj hjt
  · rfl

/-- A server whose delay queue holds job 1 (deadline 50, expired at
`now = 100`) and job 2 (deadline 200). -/
def srvDelay : Srv :=
  { srv0 with delay_q := { cap := 3, items := [mkJob 1 0 0 0 50 JState.delayed,
                                               mkJob 2 0 0 0 200 JState.delayed] } }

/-- C9 witness: firing the timer at `now = 100` drains exactly the
expired job 1, leaving job 2 delayed. -/
theorem delay_timer_spec_witness :
    srvDelay.delay_q.items.Pairwise (fun a b => a.deadline ≤ b.deadline) ∧
    (h_delay srvDelay).delay_q.items
      = srvDelay.delay_q.items.filter (fun j => decide (srvDelay.now < j.deadline)) :=
  ⟨by decide, (delay_timer_spec srvDelay (by decide)).1⟩
